import Mathlib

/-!
# Verification of the fulfiller / embargo-client core of go-capnproto2

Shallow embedding of `internal/fulfiller/fulfiller.go` (the Fulfiller
promise type and the embargo client) together with the small slices of
the surrounding `capnp` package that the fulfiller calls into
(`TransformPtr`, `Ptr.Interface`, `Call.Copy`, the capability table) and
the bounded FIFO of `internal/queue`.  Those surrounding slices are not
part of the analysed sources, so they are modelled from the spec and
are marked as such in their doc comments.

Side effects are made explicit: Go methods that mutate a receiver become
functions returning the new state, methods that panic return `Option`
(`none` = panic), and calls made on child fulfillers or on the wrapped
client are returned as effect lists in the order the Go code performs
them.  Child fulfillers, which are heap objects in Go, are identified by
a `FId`.  Freshly allocated messages (the result of `Call.Copy`) are
identified by a caller-supplied fresh `msgId`.
-/

namespace Capnp

/-- Identifier of a (child) `Fulfiller` heap object. -/
abbrev FId := Nat

/-- The error values that flow through the fulfiller code.
`nullClient` is `capnp.ErrNullClient`, `callQueueFull` is
`errCallQueueFull`, `queueCallCancel` is `errQueueCallCancel`;
`readFail` stands for a pointer-read error surfacing out of
`capnp.TransformPtr`, `copyFail` for an error from `capnp.Call.Copy`,
and `user` for an arbitrary application error handed to `Reject`. -/
inductive Err where
  | nullClient
  | callQueueFull
  | queueCallCancel
  | readFail (code : Nat)
  | copyFail (code : Nat)
  | user (code : Nat)
deriving DecidableEq, Repr

/-- `errCallQueueFull` ("capnp: promised answer call queue full"). -/
def errCallQueueFull : Err := .callQueueFull

/-- `errQueueCallCancel` ("capnp: queued call canceled"). -/
def errQueueCallCancel : Err := .queueCallCancel

/-- `capnp.ErrNullClient`. -/
def ErrNullClient : Err := .nullClient

/-- Modelled from the spec: a pointer inside a message (`capnp.Ptr`),
restricted to what the pipelining code observes: a struct pointer with
its pointer section, a capability (interface) pointer holding a
capability-table index, the null pointer, and a pointer whose
dereference fails with a read error (`MalformedPointer` /
`TraversalLimitExceeded`-style structural failures). -/
inductive Ptr where
  | null
  | strukt (ptrs : List Ptr)
  | iface (cap : Nat)
  | bad (code : Nat)

/-- Modelled from the spec: a struct view; the pipelining code only
walks its pointer section. -/
structure Struct where
  ptrs : List Ptr

/-- `Struct.ToPtr`. -/
def Struct.ToPtr (s : Struct) : Ptr := .strukt s.ptrs

/-- `capnp.Interface` as observed through `IsValid`/`Capability`. -/
structure Interface where
  valid : Bool
  cap : Nat
deriving DecidableEq, Repr

/-- `Ptr.Interface`: the interface view of a pointer; the zero
(invalid) `Interface` unless the pointer is a capability pointer. -/
def Ptr.Interface : Ptr → Capnp.Interface
  | .iface c => ⟨true, c⟩
  | _ => ⟨false, 0⟩

/-- `Interface.IsValid`. -/
def Interface.IsValid (i : Interface) : Bool := i.valid

/-- `Interface.Capability`. -/
def Interface.Capability (i : Interface) : Nat := i.cap

/-- Modelled from the spec: `capnp.TransformPtr` walks an ordered
sequence of pointer-section indices from a root pointer.  Descending
into a non-struct value yields the null pointer (whose fields read as
null); reading a field of a `bad` node fails with that node's read
error. -/
def TransformPtr : Ptr → List Nat → Except Err Ptr
  | p, [] => .ok p
  | .strukt ps, i :: t => TransformPtr (ps.getD i .null) t
  | .bad code, _ :: _ => .error (.readFail code)
  | .null, _ :: t => TransformPtr .null t
  | .iface _, _ :: t => TransformPtr .null t

/-- Modelled from the spec: a `capnp.Call`.  `msgId` identifies the
message holding the parameter struct; `copyFails` makes the fallible
deep copy of `Call.Copy` representable. -/
structure Call where
  method : Nat := 0
  params : Nat := 0
  msgId : Nat := 0
  copyFails : Option Nat := none
deriving DecidableEq, Repr

/-- Modelled from the spec: `capnp.Call.Copy` deep-copies the call's
parameter struct into a freshly allocated message (`freshMsg`), so the
caller's original message can be freed independently; the copy can
fail. -/
def Call.Copy (c : Call) (freshMsg : Nat) : Except Err Call :=
  match c.copyFails with
  | some e => .error (.copyFail e)
  | none => .ok { c with msgId := freshMsg }

/-- `callQueueSize` is the maximum number of pending calls. -/
def callQueueSize : Nat := 64

/-- `ecall` is a queued embargoed call. -/
structure ecall where
  call : Call
  f : FId
deriving DecidableEq, Repr

/-- `pcall` is a queued pipeline call (Go embeds `ecall`; here it is
the field `ecl`). -/
structure pcall where
  transform : List Nat
  ecl : ecall

/-- A resolved `capnp.Answer` as held by a fulfiller: `Except.ok s`
models `capnp.ImmediateAnswer(s)`, `Except.error e` models
`capnp.ErrorAnswer(e)`. -/
abbrev FAnswer := Except Err Struct

/-- `Fulfiller`.  The zero value is an unresolved answer.  `answer` is
`none` while unresolved; `queue` is the pending pipeline-call queue
(`init` gives it capacity `callQueueSize`); `done` models whether the
`resolved` channel has been closed. -/
structure Fulfiller where
  answer : Option FAnswer := none
  queue : List pcall := []
  done : Bool := false

/-- The zero value of `Fulfiller` (after the idempotent `init`, which
only allocates the channel and the empty queue). -/
def Fulfiller.zero : Fulfiller := {}

/-- A `Client` in the capability table: either an ordinary capability
or an embargo client as constructed by `newEmbargoClient`, carrying its
wrapped client and its initial queue. -/
inductive Client where
  | base (id : Nat)
  | embargo (wrapped : Client) (q0 : List ecall)

/-- `newEmbargoClient` starts an embargo client whose queue is
pre-populated with `queue` (`copy` into the fixed-size ring buffer
keeps at most `callQueueSize` entries). -/
def newEmbargoClient (client : Client) (queue : List ecall) : Client :=
  .embargo client (queue.take callQueueSize)

/-- `Fulfiller.emptyQueue` splits the queue by which capability it
targets and drops any invalid calls, rejecting each dropped call's own
child fulfiller.  The Go map is modelled as a function from
capability-table index to group; the second component records the
`Reject` calls made on child fulfillers, in program order.  Go's
`f.queue` is passed explicitly as `q`.  `emptyQueueStep` is the body
of its `for i, pc := range f.queue` loop. -/
def emptyQueueStep (s : Struct)
    (acc : (Nat → List ecall) × List (FId × Err)) (pc : pcall) :
    (Nat → List ecall) × List (FId × Err) :=
  match TransformPtr s.ToPtr pc.transform with
  | .error e => (acc.1, acc.2 ++ [(pc.ecl.f, e)])
  | .ok c =>
    if (Ptr.Interface c).IsValid then
      (fun m => if m = (Ptr.Interface c).Capability
                then acc.1 m ++ [pc.ecl] else acc.1 m,
       acc.2)
    else (acc.1, acc.2 ++ [(pc.ecl.f, ErrNullClient)])

/-- The loop of `emptyQueue` as a fold of `emptyQueueStep`. -/
def Fulfiller.emptyQueue (s : Struct) (q : List pcall) :
    (Nat → List ecall) × List (FId × Err) :=
  q.foldl (emptyQueueStep s) (fun _ => [], [])

/-- `Fulfiller.Fulfill` sets the fulfiller's answer to `s`, empties the
queue, and replaces every capability-table entry targeted by a
successfully resolved queued call with a new embargo client seeded with
that entry's group.  The capability table of `s`'s message is passed
explicitly as `ctab` and returned updated.  Returns `none` (panic
"called more than once") if already resolved. -/
def Fulfiller.Fulfill (f : Fulfiller) (s : Struct) (ctab : List Client) :
    Option (Fulfiller × List Client × List (FId × Err)) :=
  if f.answer.isSome then none
  else
    let qs := Fulfiller.emptyQueue s f.queue
    some ({ answer := some (Except.ok s), queue := [], done := true },
      ctab.mapIdx (fun cn c =>
        if qs.1 cn = [] then c else newEmbargoClient c (qs.1 cn)),
      qs.2)

/-- `Fulfiller.Reject` sets the fulfiller's answer to the error and
rejects every queued call's child fulfiller with the same error, in
queue order.  Returns `none` (panic) when the error is `none` (Go
`nil`) or when already resolved.  Go zeroes the queue entries in place;
since the queue is never read again once resolved, this is modelled as
emptying it. -/
def Fulfiller.Reject (f : Fulfiller) (err : Option Err) :
    Option (Fulfiller × List (FId × Err)) :=
  match err with
  | none => none
  | some e =>
    if f.answer.isSome then none
    else some ({ answer := some (Except.error e), queue := [], done := true },
      f.queue.map (fun pc => (pc.ecl.f, e)))

/-- `Fulfiller.Peek` returns the resolved answer or `none` if
unresolved. -/
def Fulfiller.Peek (f : Fulfiller) : Option FAnswer := f.answer

/-- Whether the channel returned by `Fulfiller.Done` has been
closed. -/
def Fulfiller.DoneClosed (f : Fulfiller) : Bool := f.done

/-- The `capnp.Answer` returned by `Fulfiller.PipelineCall`: delegation
to the already-resolved answer's `PipelineCall`, an error answer, or a
freshly created child fulfiller. -/
inductive PCResult where
  | delegated (a : FAnswer) (transform : List Nat) (call : Call)
  | errorAnswer (e : Err)
  | child (g : FId)

/-- `Fulfiller.PipelineCall` delegates to the resolved answer when
resolved (Go's lock-free fast path and the re-check under the lock
collapse to the same branch in this sequential model); otherwise it
fails with `errCallQueueFull` when the queue is at capacity
(`len(f.queue) == cap(f.queue)`, and `init` fixes the capacity at
`callQueueSize`), else deep-copies the call and enqueues
`(transform, copied call, new child fulfiller g)`.  `freshMsg` is the
message allocated by the copy, `g` the identity of `new(Fulfiller)`. -/
def Fulfiller.PipelineCall (f : Fulfiller) (transform : List Nat)
    (call : Call) (freshMsg : Nat) (g : FId) : PCResult × Fulfiller :=
  match f.answer with
  | some a => (.delegated a transform call, f)
  | none =>
    if f.queue.length = callQueueSize then (.errorAnswer errCallQueueFull, f)
    else
      match call.Copy freshMsg with
      | .error e => (.errorAnswer e, f)
      | .ok cc => (.child g, { f with queue := f.queue ++ [⟨transform, ⟨cc, g⟩⟩] })

/-- The `capnp.Answer` returned by `embargoClient.Call` / `push`:
either the call was forwarded directly to the wrapped client (`Call`'s
passthrough fast path), or a fresh pending child fulfiller `g` was
returned, or an error answer. -/
inductive CallResult where
  | forwarded (target : Client) (c : Call)
  | answerF (g : FId)
  | errorAnswer (e : Err)

/-- `embargoClient`: the wrapped client plus the call queue.  Modelled
from the spec where `internal/queue` is concerned: `queue.Queue` is a
bounded FIFO over a fixed-size ring (`newEmbargoClient` sizes it at
`callQueueSize`), whose `Push` fails exactly when the queue is full;
here it is a list with its head at the front and that capacity bound
checked in `push`. -/
structure embargoClient where
  client : Client
  q : List ecall

/-- The queue state `newEmbargoClient` hands to the flush worker:
`copy` into the `callQueueSize`-sized ring keeps at most
`callQueueSize` entries of `queue`, in order. -/
def embargoClient.start (client : Client) (queue : List ecall) :
    embargoClient :=
  ⟨client, queue.take callQueueSize⟩

/-- `embargoClient.isPassthrough`: the queue has been flushed. -/
def embargoClient.isPassthrough (ec : embargoClient) : Bool :=
  ec.q.length = 0

/-- `embargoClient.WrappedClient` returns the wrapped client once the
queue is flushed, and Go `nil` (here `none`) before that. -/
def embargoClient.WrappedClient (ec : embargoClient) : Option Client :=
  if ec.isPassthrough then some ec.client else none

/-- `embargoClient.push`: deep-copy the call (an error answer if the
copy fails), then `Push` it with a `new(Fulfiller)` (identified by `g`)
onto the queue — an `errCallQueueFull` error answer if the queue is at
capacity — and return the new fulfiller as the pending answer. -/
def embargoClient.push (ec : embargoClient) (cl : Call) (freshMsg : Nat)
    (g : FId) : CallResult × embargoClient :=
  match cl.Copy freshMsg with
  | .error e => (.errorAnswer e, ec)
  | .ok cc =>
    if callQueueSize ≤ ec.q.length then (.errorAnswer errCallQueueFull, ec)
    else (.answerF g, { ec with q := ec.q ++ [⟨cc, g⟩] })

/-- `embargoClient.Call`: forward directly to the wrapped client when
the queue is flushed, otherwise queue the call.  (Go's fast path under
the read lock and the re-check under the write lock collapse to the
same branch in this sequential model.) -/
def embargoClient.Call (ec : embargoClient) (cl : Call) (freshMsg : Nat)
    (g : FId) : CallResult × embargoClient :=
  if ec.isPassthrough then (.forwarded ec.client cl, ec)
  else ec.push cl freshMsg g

/-- `k` iterations of `embargoClient.flushQueue`'s loop: each iteration
peeks the head entry, dispatches its call on the wrapped client
(recorded, in order, in the returned list), hands the resulting answer
to a goroutine that settles the entry's fulfiller asynchronously, and
pops.  The loop stops early once the queue is empty. -/
def embargoClient.flushRun :
    Nat → embargoClient → embargoClient × List Capnp.Call
  | 0, ec => (ec, [])
  | k + 1, ec =>
    match ec.q with
    | [] => (ec, [])
    | e :: rest =>
      let r := embargoClient.flushRun k ⟨ec.client, rest⟩
      (r.1, e.call :: r.2)

/-- `embargoClient.flushQueue` run to completion (the queue length
bounds the number of loop iterations, since only the flush worker
pops). -/
def embargoClient.flushQueue (ec : embargoClient) :
    embargoClient × List Capnp.Call :=
  embargoClient.flushRun ec.q.length ec

/-- An effect performed by `embargoClient.Close`: a `Reject` on a
queued entry's fulfiller, or `Close` on the wrapped client. -/
inductive CloseEffect where
  | rejected (g : FId) (e : Err)
  | closedClient (c : Client)

/-- `embargoClient.Close` pops and rejects every queued call with
`errQueueCallCancel`, then closes the wrapped client; the effect list
records those actions in program order. -/
def embargoClient.Close (ec : embargoClient) :
    embargoClient × List CloseEffect :=
  (⟨ec.client, []⟩,
   ec.q.map (fun e => CloseEffect.rejected e.f errQueueCallCancel)
     ++ [CloseEffect.closedClient ec.client])

/-! ## Specification-side characterizations

`resolveEntry`, `groupFor` and `rejections` restate what one pass of
`Fulfiller.emptyQueue` does to a single queue entry, per capability
index; the bridge lemmas below prove them equal to the fold. -/

/-- How `emptyQueue` classifies one queued call against the fulfilled
struct: the capability-table index it targets, or the error its child
fulfiller is rejected with. -/
def resolveEntry (s : Struct) (pc : pcall) : Except Err Nat :=
  match TransformPtr s.ToPtr pc.transform with
  | .error e => .error e
  | .ok c =>
    if (Ptr.Interface c).IsValid then .ok ((Ptr.Interface c).Capability)
    else .error ErrNullClient

/-- The group of queued calls targeting capability-table index `cn`,
in original enqueue order. -/
def groupFor (s : Struct) (q : List pcall) (cn : Nat) : List ecall :=
  q.filterMap fun pc =>
    match resolveEntry s pc with
    | .ok c => if c = cn then some pc.ecl else none
    | .error _ => none

/-- The child-fulfiller rejections `emptyQueue` performs, in queue
order. -/
def rejections (s : Struct) (q : List pcall) : List (FId × Err) :=
  q.filterMap fun pc =>
    match resolveEntry s pc with
    | .ok _ => none
    | .error e => some (pc.ecl.f, e)

/-- The states a `Fulfiller` can reach from its zero value through its
(state-changing) exported methods. -/
inductive Reachable : Fulfiller → Prop where
  | zero : Reachable Fulfiller.zero
  | fulfill {f : Fulfiller} {s ctab f' ctab' rej} : Reachable f →
      f.Fulfill s ctab = some (f', ctab', rej) → Reachable f'
  | reject {f : Fulfiller} {e f' rej} : Reachable f →
      f.Reject e = some (f', rej) → Reachable f'
  | pipeline {f : Fulfiller} {t c m g r f'} : Reachable f →
      f.PipelineCall t c m g = (r, f') → Reachable f'

/-! ## Bridge lemmas: the `emptyQueue` fold versus `groupFor` and
`rejections` -/

theorem groupFor_cons_ok {s : Struct} {pc : pcall} {c : Nat}
    (rest : List pcall) (cn : Nat) (h : resolveEntry s pc = .ok c) :
    groupFor s (pc :: rest) cn =
      (if c = cn then [pc.ecl] else []) ++ groupFor s rest cn := by
  simp only [groupFor, List.filterMap_cons, h]
  by_cases hc : c = cn <;> simp [hc]

theorem groupFor_cons_err {s : Struct} {pc : pcall} {e : Err}
    (rest : List pcall) (cn : Nat) (h : resolveEntry s pc = .error e) :
    groupFor s (pc :: rest) cn = groupFor s rest cn := by
  simp only [groupFor, List.filterMap_cons, h]

theorem rejections_cons_ok {s : Struct} {pc : pcall} {c : Nat}
    (rest : List pcall) (h : resolveEntry s pc = .ok c) :
    rejections s (pc :: rest) = rejections s rest := by
  simp only [rejections, List.filterMap_cons, h]

theorem rejections_cons_err {s : Struct} {pc : pcall} {e : Err}
    (rest : List pcall) (h : resolveEntry s pc = .error e) :
    rejections s (pc :: rest) = (pc.ecl.f, e) :: rejections s rest := by
  simp only [rejections, List.filterMap_cons, h]

theorem emptyQueue_foldl (s : Struct) (q : List pcall) :
    ∀ (g0 : Nat → List ecall) (r0 : List (FId × Err)),
      q.foldl (emptyQueueStep s) (g0, r0) =
        (fun cn => g0 cn ++ groupFor s q cn, r0 ++ rejections s q) := by
  induction q with
  | nil =>
    intro g0 r0
    simp [groupFor, rejections]
  | cons pc rest ih =>
    intro g0 r0
    simp only [List.foldl_cons]
    cases htp : TransformPtr s.ToPtr pc.transform with
    | error e =>
      have hre : resolveEntry s pc = .error e := by simp [resolveEntry, htp]
      have hstep : emptyQueueStep s (g0, r0) pc =
          (g0, r0 ++ [(pc.ecl.f, e)]) := by
        simp [emptyQueueStep, htp]
      rw [hstep, ih]
      simp only [Prod.mk.injEq]
      constructor
      · funext cn
        rw [groupFor_cons_err rest cn hre]
      · rw [rejections_cons_err rest hre]
        simp
    | ok c =>
      cases hv : (Ptr.Interface c).IsValid with
      | false =>
        have hre : resolveEntry s pc = .error ErrNullClient := by
          simp [resolveEntry, htp, hv]
        have hstep : emptyQueueStep s (g0, r0) pc =
            (g0, r0 ++ [(pc.ecl.f, ErrNullClient)]) := by
          simp [emptyQueueStep, htp, hv]
        rw [hstep, ih]
        simp only [Prod.mk.injEq]
        constructor
        · funext cn
          rw [groupFor_cons_err rest cn hre]
        · rw [rejections_cons_err rest hre]
          simp
      | true =>
        have hre : resolveEntry s pc = .ok ((Ptr.Interface c).Capability) := by
          simp [resolveEntry, htp, hv]
        have hstep : emptyQueueStep s (g0, r0) pc =
            (fun m => if m = (Ptr.Interface c).Capability
                      then g0 m ++ [pc.ecl] else g0 m, r0) := by
          simp [emptyQueueStep, htp, hv]
        rw [hstep, ih]
        simp only [Prod.mk.injEq]
        constructor
        · funext cn
          rw [groupFor_cons_ok rest cn hre]
          by_cases hcn : cn = (Ptr.Interface c).Capability
          · subst hcn
            simp
          · rw [if_neg hcn, if_neg (fun hh => hcn hh.symm)]
            simp
        · rw [rejections_cons_ok rest hre]

/-- `emptyQueue` computes exactly the per-index groups and the ordered
rejection list. -/
theorem emptyQueue_eq (s : Struct) (q : List pcall) :
    Fulfiller.emptyQueue s q =
      (fun cn => groupFor s q cn, rejections s q) := by
  have h := emptyQueue_foldl s q (fun _ => []) []
  simpa [Fulfiller.emptyQueue] using h

/-- `Fulfill` on an unresolved fulfiller: the closed form of the new
state, the updated capability table and the performed rejections. -/
theorem Fulfill_eq (f : Fulfiller) (s : Struct) (ctab : List Client)
    (h : f.answer = none) :
    f.Fulfill s ctab =
      some ({ answer := some (Except.ok s), queue := [], done := true },
        ctab.mapIdx (fun cn c =>
          if groupFor s f.queue cn = [] then c
          else newEmbargoClient c (groupFor s f.queue cn)),
        rejections s f.queue) := by
  simp [Fulfiller.Fulfill, h, emptyQueue_eq]

/-- `Reject` on an unresolved fulfiller: the closed form of the new
state and the rejections performed on the queued children. -/
theorem Reject_eq (f : Fulfiller) (e : Err) (h : f.answer = none) :
    f.Reject (some e) =
      some ({ answer := some (Except.error e), queue := [], done := true },
        f.queue.map (fun pc => (pc.ecl.f, e))) := by
  simp [Fulfiller.Reject, h]

theorem filterMap_sublist_map {α β : Type} (f : α → Option β) (g : α → β)
    (h : ∀ a b, f a = some b → b = g a) (l : List α) :
    List.Sublist (l.filterMap f) (l.map g) := by
  induction l with
  | nil => simp
  | cons a l ih =>
    rw [List.map_cons, List.filterMap_cons]
    cases hfa : f a with
    | none => exact List.Sublist.cons _ ih
    | some b =>
      rw [h a b hfa]
      exact List.Sublist.cons₂ _ ih

/-- Each group is a subsequence of the queued calls: original enqueue
order is preserved inside every group. -/
theorem groupFor_sublist (s : Struct) (q : List pcall) (cn : Nat) :
    List.Sublist (groupFor s q cn) (q.map pcall.ecl) := by
  refine filterMap_sublist_map _ _ ?_ q
  intro pc e hfe
  cases hre : resolveEntry s pc with
  | error e2 => simp [hre] at hfe
  | ok c =>
    simp only [hre] at hfe
    by_cases hc : c = cn
    · rw [if_pos hc] at hfe
      exact (Option.some_inj.mp hfe).symm
    · rw [if_neg hc] at hfe
      exact absurd hfe (by simp)

/-- Membership in a group: exactly the queued calls resolving to that
capability index. -/
theorem mem_groupFor {s : Struct} {q : List pcall} {cn : Nat} {e : ecall} :
    e ∈ groupFor s q cn ↔
      ∃ pc, pc ∈ q ∧ resolveEntry s pc = Except.ok cn ∧ pc.ecl = e := by
  simp only [groupFor, List.mem_filterMap]
  constructor
  · rintro ⟨pc, hpc, hfe⟩
    cases hre : resolveEntry s pc with
    | error e2 => simp [hre] at hfe
    | ok c =>
      simp only [hre] at hfe
      by_cases hc : c = cn
      · subst hc
        rw [if_pos rfl] at hfe
        exact ⟨pc, hpc, hre, Option.some_inj.mp hfe⟩
      · rw [if_neg hc] at hfe
        exact absurd hfe (by simp)
  · rintro ⟨pc, hpc, hok, hecl⟩
    exact ⟨pc, hpc, by simp [hok, hecl]⟩

/-- Membership in the rejection list: exactly the queued calls whose
classification fails, paired with their own error. -/
theorem mem_rejections {s : Struct} {q : List pcall} {x : FId × Err} :
    x ∈ rejections s q ↔
      ∃ pc, pc ∈ q ∧ ∃ e, resolveEntry s pc = Except.error e ∧
        x = (pc.ecl.f, e) := by
  simp only [rejections, List.mem_filterMap]
  constructor
  · rintro ⟨pc, hpc, hfe⟩
    cases hre : resolveEntry s pc with
    | ok c => simp [hre] at hfe
    | error e2 =>
      simp only [hre] at hfe
      exact ⟨pc, hpc, e2, hre, (Option.some_inj.mp hfe).symm⟩
  · rintro ⟨pc, hpc, e, herr, hx⟩
    exact ⟨pc, hpc, by simp [herr, hx]⟩

/-- A group never exceeds the queue's length, so `newEmbargoClient`'s
ring-buffer `copy` keeps it whole. -/
theorem newEmbargoClient_of_small (c : Client) (q : List ecall)
    (h : q.length ≤ callQueueSize) :
    newEmbargoClient c q = .embargo c q := by
  simp [newEmbargoClient, List.take_of_length_le h]

theorem groupFor_length_le (s : Struct) (q : List pcall) (cn : Nat) :
    (groupFor s q cn).length ≤ q.length :=
  List.length_filterMap_le _ _

/-! ## Claim theorems -/

/-- C1: when a fulfiller is fulfilled with struct `S`, every queued
call whose transform resolves against `S` to a valid capability is
grouped by the capability-table index it targets, each group preserves
the original enqueue order (it is a subsequence of the queue, and
holds exactly the queued calls resolving to its index), and each group
becomes the initial queue of a newly constructed embargo client that
replaces the raw entry at that index in the capability table of `S`'s
message. -/
theorem fulfill_groups_and_embargoes (f : Fulfiller) (s : Struct)
    (ctab : List Client) (f' : Fulfiller) (ctab' : List Client)
    (rej : List (FId × Err))
    (hq : f.queue.length ≤ callQueueSize)
    (h : f.Fulfill s ctab = some (f', ctab', rej)) :
    ctab'.length = ctab.length ∧
    (∀ cn, List.Sublist (groupFor s f.queue cn) (f.queue.map pcall.ecl)) ∧
    (∀ pc, pc ∈ f.queue → ∀ cn, resolveEntry s pc = Except.ok cn →
      pc.ecl ∈ groupFor s f.queue cn) ∧
    (∀ cn e, e ∈ groupFor s f.queue cn →
      ∃ pc, pc ∈ f.queue ∧ resolveEntry s pc = Except.ok cn ∧ pc.ecl = e) ∧
    (∀ cn, cn < ctab.length → groupFor s f.queue cn ≠ [] →
      ctab'.getD cn (Client.base 0) =
        Client.embargo (ctab.getD cn (Client.base 0))
          (groupFor s f.queue cn)) ∧
    (∀ cn, cn < ctab.length → groupFor s f.queue cn = [] →
      ctab'.getD cn (Client.base 0) = ctab.getD cn (Client.base 0)) := by
  have hans : f.answer = none := by
    cases h0 : f.answer with
    | none => rfl
    | some a =>
      rw [Fulfiller.Fulfill] at h
      simp [h0] at h
  rw [Fulfill_eq f s ctab hans] at h
  injection h with h
  have hctab : ctab.mapIdx (fun cn c =>
      if groupFor s f.queue cn = [] then c
      else newEmbargoClient c (groupFor s f.queue cn)) = ctab' :=
    congrArg (fun x => x.2.1) h
  refine ⟨?_, ?_, ?_, ?_, ?_, ?_⟩
  · rw [← hctab, List.length_mapIdx]
  · intro cn
    exact groupFor_sublist s f.queue cn
  · intro pc hpc cn hok
    exact mem_groupFor.mpr ⟨pc, hpc, hok, rfl⟩
  · intro cn e he
    exact mem_groupFor.mp he
  · intro cn hcn hne
    rw [← hctab, List.getD_eq_getElem?_getD, List.getElem?_mapIdx,
      List.getElem?_eq_getElem hcn]
    simp only [Option.map_some', Option.getD_some]
    rw [if_neg hne, newEmbargoClient_of_small]
    · rw [List.getD_eq_getElem?_getD, List.getElem?_eq_getElem hcn]
      rfl
    · exact Nat.le_trans (groupFor_length_le s f.queue cn) hq
  · intro cn hcn hemp
    rw [← hctab, List.getD_eq_getElem?_getD, List.getElem?_mapIdx,
      List.getElem?_eq_getElem hcn]
    simp only [Option.map_some', Option.getD_some]
    rw [if_pos hemp, List.getD_eq_getElem?_getD,
      List.getElem?_eq_getElem hcn]
    rfl

theorem fulfill_groups_and_embargoes_witness :
    ([Client.embargo (Client.base 10) [⟨{}, 1⟩],
      Client.embargo (Client.base 11) [⟨{}, 2⟩]] : List Client).length =
      ([Client.base 10, Client.base 11] : List Client).length ∧
    (∀ cn, List.Sublist
      (groupFor ⟨[Ptr.iface 0, Ptr.iface 1]⟩
        [⟨[0], ⟨{}, 1⟩⟩, ⟨[1], ⟨{}, 2⟩⟩] cn)
      (([⟨[0], ⟨{}, 1⟩⟩, ⟨[1], ⟨{}, 2⟩⟩] : List pcall).map pcall.ecl)) ∧
    (∀ pc, pc ∈ ([⟨[0], ⟨{}, 1⟩⟩, ⟨[1], ⟨{}, 2⟩⟩] : List pcall) →
      ∀ cn, resolveEntry ⟨[Ptr.iface 0, Ptr.iface 1]⟩ pc = Except.ok cn →
      pc.ecl ∈ groupFor ⟨[Ptr.iface 0, Ptr.iface 1]⟩
        [⟨[0], ⟨{}, 1⟩⟩, ⟨[1], ⟨{}, 2⟩⟩] cn) ∧
    (∀ cn e, e ∈ groupFor ⟨[Ptr.iface 0, Ptr.iface 1]⟩
        [⟨[0], ⟨{}, 1⟩⟩, ⟨[1], ⟨{}, 2⟩⟩] cn →
      ∃ pc, pc ∈ ([⟨[0], ⟨{}, 1⟩⟩, ⟨[1], ⟨{}, 2⟩⟩] : List pcall) ∧
        resolveEntry ⟨[Ptr.iface 0, Ptr.iface 1]⟩ pc = Except.ok cn ∧
        pc.ecl = e) ∧
    (∀ cn, cn < ([Client.base 10, Client.base 11] : List Client).length →
      groupFor ⟨[Ptr.iface 0, Ptr.iface 1]⟩
        [⟨[0], ⟨{}, 1⟩⟩, ⟨[1], ⟨{}, 2⟩⟩] cn ≠ [] →
      ([Client.embargo (Client.base 10) [⟨{}, 1⟩],
        Client.embargo (Client.base 11) [⟨{}, 2⟩]] : List Client).getD cn
          (Client.base 0) =
        Client.embargo
          (([Client.base 10, Client.base 11] : List Client).getD cn
            (Client.base 0))
          (groupFor ⟨[Ptr.iface 0, Ptr.iface 1]⟩
            [⟨[0], ⟨{}, 1⟩⟩, ⟨[1], ⟨{}, 2⟩⟩] cn)) ∧
    (∀ cn, cn < ([Client.base 10, Client.base 11] : List Client).length →
      groupFor ⟨[Ptr.iface 0, Ptr.iface 1]⟩
        [⟨[0], ⟨{}, 1⟩⟩, ⟨[1], ⟨{}, 2⟩⟩] cn = [] →
      ([Client.embargo (Client.base 10) [⟨{}, 1⟩],
        Client.embargo (Client.base 11) [⟨{}, 2⟩]] : List Client).getD cn
          (Client.base 0) =
        ([Client.base 10, Client.base 11] : List Client).getD cn
          (Client.base 0)) :=
  fulfill_groups_and_embargoes
    ⟨none, [⟨[0], ⟨{}, 1⟩⟩, ⟨[1], ⟨{}, 2⟩⟩], false⟩
    ⟨[Ptr.iface 0, Ptr.iface 1]⟩
    [Client.base 10, Client.base 11]
    ⟨some (Except.ok ⟨[Ptr.iface 0, Ptr.iface 1]⟩), [], true⟩
    [Client.embargo (Client.base 10) [⟨{}, 1⟩],
     Client.embargo (Client.base 11) [⟨{}, 2⟩]]
    [] (by decide) (by rfl)

/-- C5: at fulfillment, a queued call whose transform fails to resolve
has only its own child fulfiller rejected with the transform error,
and one resolving to an invalid capability has only its own child
rejected with the null-client error; sibling queued calls are not
rejected and the parent resolution is unaffected. -/
theorem fulfill_rejects_only_failing (f : Fulfiller) (s : Struct)
    (ctab : List Client) (f' : Fulfiller) (ctab' : List Client)
    (rej : List (FId × Err))
    (hids : (f.queue.map (fun pc => pc.ecl.f)).Nodup)
    (h : f.Fulfill s ctab = some (f', ctab', rej)) :
    rej = rejections s f.queue ∧
    (∀ pc, pc ∈ f.queue → ∀ e,
      TransformPtr s.ToPtr pc.transform = Except.error e →
      (pc.ecl.f, e) ∈ rej) ∧
    (∀ pc, pc ∈ f.queue → ∀ c,
      TransformPtr s.ToPtr pc.transform = Except.ok c →
      (Ptr.Interface c).IsValid = false → (pc.ecl.f, ErrNullClient) ∈ rej) ∧
    (∀ pc, pc ∈ f.queue → ∀ cn, resolveEntry s pc = Except.ok cn →
      ∀ e, (pc.ecl.f, e) ∉ rej) ∧
    f'.answer = some (Except.ok s) := by
  have hans : f.answer = none := by
    cases h0 : f.answer with
    | none => rfl
    | some a =>
      rw [Fulfiller.Fulfill] at h
      simp [h0] at h
  rw [Fulfill_eq f s ctab hans] at h
  injection h with h
  have hrej : rej = rejections s f.queue :=
    (congrArg (fun x => x.2.2) h).symm
  have hf : _ = f' := congrArg Prod.fst h
  refine ⟨hrej, ?_, ?_, ?_, by rw [← hf]⟩
  · intro pc hpc e htp
    have hre : resolveEntry s pc = .error e := by simp [resolveEntry, htp]
    rw [hrej]
    exact mem_rejections.mpr ⟨pc, hpc, e, hre, rfl⟩
  · intro pc hpc c htp hv
    have hre : resolveEntry s pc = .error ErrNullClient := by
      simp [resolveEntry, htp, hv]
    rw [hrej]
    exact mem_rejections.mpr ⟨pc, hpc, ErrNullClient, hre, rfl⟩
  · intro pc hpc cn hok e hmem
    rw [hrej] at hmem
    obtain ⟨pc2, hpc2, e2, herr2, heq⟩ := mem_rejections.mp hmem
    have hff : pc.ecl.f = pc2.ecl.f := congrArg Prod.fst heq
    have hpp : pc = pc2 := List.inj_on_of_nodup_map hids hpc hpc2 hff
    rw [← hpp, hok] at herr2
    exact Except.noConfusion herr2

theorem fulfill_rejects_only_failing_witness :
    ([(1, Err.readFail 3), (2, ErrNullClient)] : List (FId × Err)) =
      rejections ⟨[Ptr.bad 3, Ptr.null, Ptr.iface 0]⟩
        [⟨[0, 0], ⟨{}, 1⟩⟩, ⟨[1], ⟨{}, 2⟩⟩, ⟨[2], ⟨{}, 3⟩⟩] ∧
    (∀ pc, pc ∈ ([⟨[0, 0], ⟨{}, 1⟩⟩, ⟨[1], ⟨{}, 2⟩⟩,
        ⟨[2], ⟨{}, 3⟩⟩] : List pcall) → ∀ e,
      TransformPtr (Struct.ToPtr ⟨[Ptr.bad 3, Ptr.null, Ptr.iface 0]⟩)
          pc.transform = Except.error e →
      (pc.ecl.f, e) ∈ ([(1, Err.readFail 3), (2, ErrNullClient)] :
        List (FId × Err))) ∧
    (∀ pc, pc ∈ ([⟨[0, 0], ⟨{}, 1⟩⟩, ⟨[1], ⟨{}, 2⟩⟩,
        ⟨[2], ⟨{}, 3⟩⟩] : List pcall) → ∀ c,
      TransformPtr (Struct.ToPtr ⟨[Ptr.bad 3, Ptr.null, Ptr.iface 0]⟩)
          pc.transform = Except.ok c →
      (Ptr.Interface c).IsValid = false →
      (pc.ecl.f, ErrNullClient) ∈ ([(1, Err.readFail 3),
        (2, ErrNullClient)] : List (FId × Err))) ∧
    (∀ pc, pc ∈ ([⟨[0, 0], ⟨{}, 1⟩⟩, ⟨[1], ⟨{}, 2⟩⟩,
        ⟨[2], ⟨{}, 3⟩⟩] : List pcall) → ∀ cn,
      resolveEntry ⟨[Ptr.bad 3, Ptr.null, Ptr.iface 0]⟩ pc =
        Except.ok cn →
      ∀ e, (pc.ecl.f, e) ∉ ([(1, Err.readFail 3), (2, ErrNullClient)] :
        List (FId × Err))) ∧
    (Fulfiller.mk (some (Except.ok ⟨[Ptr.bad 3, Ptr.null, Ptr.iface 0]⟩))
        [] true).answer =
      some (Except.ok ⟨[Ptr.bad 3, Ptr.null, Ptr.iface 0]⟩) :=
  fulfill_rejects_only_failing
    ⟨none, [⟨[0, 0], ⟨{}, 1⟩⟩, ⟨[1], ⟨{}, 2⟩⟩, ⟨[2], ⟨{}, 3⟩⟩], false⟩
    ⟨[Ptr.bad 3, Ptr.null, Ptr.iface 0]⟩
    [Client.base 9]
    ⟨some (Except.ok ⟨[Ptr.bad 3, Ptr.null, Ptr.iface 0]⟩), [], true⟩
    [Client.embargo (Client.base 9) [⟨{}, 3⟩]]
    [(1, Err.readFail 3), (2, ErrNullClient)]
    (by decide) (by rfl)

/-- C3: resolving a `Fulfiller` a second time — fulfill-after-fulfill,
fulfill-after-reject, reject-after-reject or reject-after-fulfill —
and rejecting with a nil error panic (`none`) instead of silently
succeeding, and the already-observed resolved answer is never
changed (`Peek` still returns it). -/
theorem double_resolution_panics (f : Fulfiller) (a : FAnswer)
    (h : f.answer = some a) :
    (∀ s ctab, f.Fulfill s ctab = none) ∧
    (∀ e, f.Reject e = none) ∧
    (∀ g : Fulfiller, g.Reject none = none) ∧
    f.Peek = some a := by
  refine ⟨?_, ?_, ?_, h⟩
  · intro s ctab
    simp [Fulfiller.Fulfill, h]
  · intro e
    cases e with
    | none => rfl
    | some e => simp [Fulfiller.Reject, h]
  · intro g
    rfl

theorem double_resolution_panics_witness :
    (∀ s ctab,
      (Fulfiller.mk (some (Except.ok ⟨[]⟩)) [] true).Fulfill s ctab = none) ∧
    (∀ e, (Fulfiller.mk (some (Except.ok ⟨[]⟩)) [] true).Reject e = none) ∧
    (∀ g : Fulfiller, g.Reject none = none) ∧
    (Fulfiller.mk (some (Except.ok ⟨[]⟩)) [] true).Peek =
      some (Except.ok ⟨[]⟩) :=
  double_resolution_panics ⟨some (Except.ok ⟨[]⟩), [], true⟩
    (Except.ok ⟨[]⟩) rfl

/-- C4: `PipelineCall` on a resolved fulfiller delegates to the
resolved answer's `PipelineCall`; on an unresolved one it returns a
queue-full error answer when the bounded queue is at its fixed
capacity of 64 entries, and otherwise deep-copies the call, enqueues
`(transform, copied call, child fulfiller)` and returns the child as
the new answer. -/
theorem pipelineCall_cases (f : Fulfiller) (t : List Nat) (c : Call)
    (m : Nat) (g : FId) :
    callQueueSize = 64 ∧
    (∀ a, f.answer = some a →
      f.PipelineCall t c m g = (.delegated a t c, f)) ∧
    (f.answer = none → f.queue.length = callQueueSize →
      f.PipelineCall t c m g = (.errorAnswer errCallQueueFull, f)) ∧
    (∀ e, f.answer = none → f.queue.length ≠ callQueueSize →
      c.Copy m = .error e →
      f.PipelineCall t c m g = (.errorAnswer e, f)) ∧
    (∀ cc, f.answer = none → f.queue.length ≠ callQueueSize →
      c.Copy m = .ok cc →
      f.PipelineCall t c m g =
        (.child g, { f with queue := f.queue ++ [⟨t, ⟨cc, g⟩⟩] })) := by
  refine ⟨rfl, ?_, ?_, ?_, ?_⟩ <;> intros <;>
    simp_all [Fulfiller.PipelineCall]

/-- C6: rejecting an unresolved fulfiller with a non-nil error `E`
makes its answer the error answer for `E` and rejects every queued
call's child fulfiller with exactly `E`. -/
theorem reject_rejects_queue_with_same_error (f : Fulfiller) (e : Err)
    (h : f.answer = none) :
    f.Reject (some e) =
      some ({ answer := some (Except.error e), queue := [], done := true },
        f.queue.map (fun pc => (pc.ecl.f, e))) := by
  simp [Fulfiller.Reject, h]

theorem reject_rejects_queue_with_same_error_witness :
    Fulfiller.Reject
        ⟨none, [⟨[0], ⟨{}, 1⟩⟩, ⟨[1], ⟨{}, 2⟩⟩], false⟩
        (some (Err.user 7)) =
      some ({ answer := some (Except.error (Err.user 7)), queue := [],
              done := true },
        [(1, Err.user 7), (2, Err.user 7)]) :=
  reject_rejects_queue_with_same_error
    ⟨none, [⟨[0], ⟨{}, 1⟩⟩, ⟨[1], ⟨{}, 2⟩⟩], false⟩ (Err.user 7) rfl

/-- C7: closing an embargo client rejects every still-queued entry's
fulfiller with the queued-call-cancel error, in queue order, and then
closes the wrapped client exactly once. -/
theorem embargo_close_cancels_then_closes_once (ec : embargoClient) :
    ec.Close =
      (⟨ec.client, []⟩,
       ec.q.map (fun e => CloseEffect.rejected e.f errQueueCallCancel)
         ++ [CloseEffect.closedClient ec.client]) ∧
    (ec.Close).2.countP (fun ef => match ef with
        | .closedClient _ => true
        | _ => false) = 1 ∧
    (∀ e, e ∈ ec.q →
      CloseEffect.rejected e.f errQueueCallCancel ∈ (ec.Close).2) := by
  refine ⟨rfl, ?_, ?_⟩
  · simp [embargoClient.Close, List.countP_append, List.countP_map,
      List.countP_cons, Function.comp]
  · intro e he
    simp only [embargoClient.Close, List.mem_append, List.mem_map]
    exact Or.inl ⟨e, he, rfl⟩

/-- C8: an embargo client's `Call` forwards directly to the wrapped
client when the queue is empty (passthrough); otherwise it appends the
(copied) call together with a new fulfiller to the tail of the FIFO
queue and returns that fulfiller as the pending answer, and when the
queue is at capacity it fails with a queue-full error answer instead of
enqueueing. -/
theorem embargo_call_cases (ec : embargoClient) (cl : Call) (m : Nat)
    (g : FId) :
    (ec.q = [] → ec.Call cl m g = (.forwarded ec.client cl, ec)) ∧
    (∀ cc, ec.q ≠ [] → cl.Copy m = .ok cc → ec.q.length < callQueueSize →
      ec.Call cl m g = (.answerF g, { ec with q := ec.q ++ [⟨cc, g⟩] })) ∧
    (∀ cc, ec.q ≠ [] → cl.Copy m = .ok cc → callQueueSize ≤ ec.q.length →
      ec.Call cl m g = (.errorAnswer errCallQueueFull, ec)) := by
  refine ⟨?_, ?_, ?_⟩
  · intro h
    simp [embargoClient.Call, embargoClient.isPassthrough, h]
  · intro cc hne hcopy hlen
    have hlen0 : ¬ec.q.length = 0 := by
      simpa [List.length_eq_zero] using hne
    simp [embargoClient.Call, embargoClient.isPassthrough, hlen0,
      embargoClient.push, hcopy, Nat.not_le.mpr hlen]
  · intro cc hne hcopy hlen
    have hlen0 : ¬ec.q.length = 0 := by
      simpa [List.length_eq_zero] using hne
    simp [embargoClient.Call, embargoClient.isPassthrough, hlen0,
      embargoClient.push, hcopy, hlen]

/-- C10: the embargo client's queueing path deep-copies the call
before enqueueing — the queued entry holds the copy, backed by the
freshly allocated message rather than the caller's original — and when
the copy fails, the copy error is returned as an error answer and
nothing is enqueued. -/
theorem embargo_push_copies (ec : embargoClient) (cl : Call) (m : Nat)
    (g : FId) :
    (∀ e, cl.Copy m = .error e → ec.push cl m g = (.errorAnswer e, ec)) ∧
    (cl.copyFails = none → m ≠ cl.msgId → ec.q.length < callQueueSize →
      ∃ cc, cl.Copy m = .ok cc ∧ cc.msgId = m ∧ cc.msgId ≠ cl.msgId ∧
        cc.params = cl.params ∧ cc.method = cl.method ∧
        ec.push cl m g = (.answerF g, { ec with q := ec.q ++ [⟨cc, g⟩] })) := by
  constructor
  · intro e hcopy
    simp [embargoClient.push, hcopy]
  · intro hnofail hfresh hlen
    refine ⟨{ cl with msgId := m }, ?_, rfl, hfresh, rfl, rfl, ?_⟩
    · simp [Call.Copy, hnofail]
    · simp [embargoClient.push, Call.Copy, hnofail, Nat.not_le.mpr hlen]

/-- One flush iteration dispatches exactly the queue head; `k`
iterations dispatch the first `k` queued calls, in order. -/
theorem flushRun_spec (cl : Client) :
    ∀ (k : Nat) (q : List ecall),
      embargoClient.flushRun k ⟨cl, q⟩ =
        (⟨cl, q.drop k⟩, (q.take k).map ecall.call) := by
  intro k
  induction k with
  | zero =>
    intro q
    simp [embargoClient.flushRun]
  | succ k ih =>
    intro q
    cases q with
    | nil => simp [embargoClient.flushRun]
    | cons e rest => simp [embargoClient.flushRun, ih rest]

/-- C2: the single flush worker delivers the queued calls to the
wrapped client one per loop iteration, in submission (FIFO) order;
`WrappedClient` reports `none` (not passthrough) until all `N` initial
calls have been dispatched and the wrapped client thereafter; and once
the queue is empty the client is permanently a passthrough — every
later `Call` is forwarded directly to the wrapped client, leaving the
queue empty, and is never queued. -/
theorem embargo_flush_fifo_then_passthrough (ec : embargoClient) :
    (∀ k, embargoClient.flushRun k ec =
      (⟨ec.client, ec.q.drop k⟩, (ec.q.take k).map ecall.call)) ∧
    ec.flushQueue = (⟨ec.client, []⟩, ec.q.map ecall.call) ∧
    (∀ k, k < ec.q.length →
      (embargoClient.flushRun k ec).1.WrappedClient = none) ∧
    (∀ k, ec.q.length ≤ k →
      (embargoClient.flushRun k ec).1.WrappedClient = some ec.client) ∧
    (∀ ec2 : embargoClient, ec2.q = [] → ∀ cl m g,
      ec2.Call cl m g = (.forwarded ec2.client cl, ec2)) := by
  have hrun : ∀ k, embargoClient.flushRun k ec =
      (⟨ec.client, ec.q.drop k⟩, (ec.q.take k).map ecall.call) := by
    intro k
    exact flushRun_spec ec.client k ec.q
  refine ⟨hrun, ?_, ?_, ?_, ?_⟩
  · rw [embargoClient.flushQueue, hrun ec.q.length]
    simp
  · intro k hk
    rw [hrun k]
    simp [embargoClient.WrappedClient, embargoClient.isPassthrough]
    omega
  · intro k hk
    rw [hrun k]
    simp [embargoClient.WrappedClient, embargoClient.isPassthrough]
    omega
  · intro ec2 hq cl m g
    simp [embargoClient.Call, embargoClient.isPassthrough, hq]

/-- C9: the zero `Fulfiller` is a valid unresolved answer (`Peek` is
`nil`, the done channel unclosed, the queue empty), and in every state
reachable through the exported methods the done channel is closed
exactly when the fulfiller is resolved, with `Peek` returning the
resolved answer (`none` before resolution). -/
theorem fulfiller_zero_and_done_invariant :
    Fulfiller.zero.Peek = none ∧
    Fulfiller.zero.DoneClosed = false ∧
    Fulfiller.zero.queue = [] ∧
    (∀ f : Fulfiller, Reachable f →
      f.DoneClosed = f.answer.isSome ∧ f.Peek = f.answer) := by
  refine ⟨rfl, rfl, rfl, ?_⟩
  intro f hf
  refine ⟨?_, rfl⟩
  induction hf with
  | zero => rfl
  | fulfill hr hstep ih =>
    rename_i f0 s ctab f' ctab' rej
    have hans : f0.answer = none := by
      cases h0 : f0.answer with
      | none => rfl
      | some a =>
        rw [Fulfiller.Fulfill] at hstep
        simp [h0] at hstep
    rw [Fulfill_eq f0 s ctab hans] at hstep
    injection hstep with h
    have hf : _ = f' := congrArg Prod.fst h
    rw [← hf]
    rfl
  | reject hr hstep ih =>
    rename_i f0 e f' rej
    cases e with
    | none => exact absurd hstep (by simp [Fulfiller.Reject])
    | some e0 =>
      have hans : f0.answer = none := by
        cases h0 : f0.answer with
        | none => rfl
        | some a =>
          rw [Fulfiller.Reject] at hstep
          simp [h0] at hstep
      rw [Reject_eq f0 e0 hans] at hstep
      injection hstep with h
      have hf : _ = f' := congrArg Prod.fst h
      rw [← hf]
      rfl
  | pipeline hr hstep ih =>
    rename_i f0 t c m g r f'
    rw [Fulfiller.PipelineCall] at hstep
    cases hans : f0.answer with
    | some a =>
      simp only [hans, Prod.mk.injEq] at hstep
      rw [← hstep.2]
      exact ih
    | none =>
      simp only [hans] at hstep
      by_cases hlen : f0.queue.length = callQueueSize
      · simp only [hlen, if_true, Prod.mk.injEq] at hstep
        rw [← hstep.2]
        exact ih
      · simp only [hlen, if_false] at hstep
        cases hcopy : c.Copy m with
        | error e0 =>
          simp only [hcopy, Prod.mk.injEq] at hstep
          rw [← hstep.2]
          exact ih
        | ok cc =>
          simp only [hcopy, Prod.mk.injEq] at hstep
          rw [← hstep.2]
          simpa [Fulfiller.DoneClosed, hans] using ih

end Capnp
